import Mathlib

/-!
Verification of the linked-queue engine of lab0-c (src/queue.c) against its
natural-language specification.

The C code stores elements in an intrusive circular doubly-linked ring
anchored at a payload-less sentinel.  We embed the program shallowly:

* a stored C string is a list of nonzero bytes (`List Nat`), compared by
  `scmp`, the embedding of `strcmp`;
* an element (`element_t`) is a node identity plus its owned value;
* the sequence of elements of a valid ring, read forward from the sentinel,
  is a `List QElem`; every queue operation is translated from the body of the
  corresponding C function as a function on this sequence;
* the pointer structure itself (the `next`/`prev` fields of `struct
  list_head`) is embedded separately as a pair of functions `Nat → Nat`
  (`RingP`), with `mkRing` building the pointer structure of a ring holding a
  given sequence; the pointer-surgery primitives (`list_del_init`, the
  `swapptr` XOR swap of `q_reverse`) are translated at this level.
-/

/-- Embedding of `strcmp` on null-terminated byte strings: compare bytes
until a difference; a string that ends first is smaller (its terminator 0
compares below every nonzero byte). -/
def scmp : List Nat → List Nat → Ordering
  | [], [] => Ordering.eq
  | [], _ :: _ => Ordering.lt
  | _ :: _, [] => Ordering.gt
  | a :: as, b :: bs =>
    if a < b then Ordering.lt
    else if b < a then Ordering.gt
    else scmp as bs

/-- The relation strcmp(a,b) <= 0, the branch taken by the merges in
q_sort. -/
def sle (a b : List Nat) : Prop := scmp a b ≠ Ordering.gt

/-- The relation strcmp(a,b) < 0. -/
def slt (a b : List Nat) : Prop := scmp a b = Ordering.lt

instance : DecidablePred (fun p : List Nat × List Nat => sle p.1 p.2) :=
  fun _ => by unfold sle; infer_instance

instance (a b : List Nat) : Decidable (sle a b) := by unfold sle; infer_instance

instance (a b : List Nat) : Decidable (slt a b) := by unfold slt; infer_instance

theorem scmp_eq_iff : ∀ a b : List Nat, scmp a b = Ordering.eq ↔ a = b := by
  intro a
  induction a with
  | nil => intro b; cases b <;> simp [scmp]
  | cons x as ih =>
    intro b
    cases b with
    | nil => simp [scmp]
    | cons y bs =>
      by_cases h1 : x < y
      · simp [scmp, h1]
        omega
      · by_cases h2 : y < x
        · simp [scmp, h1, h2]
          omega
        · have hxy : x = y := by omega
          simp [scmp, h1, h2, hxy, ih]

theorem scmp_swap : ∀ a b : List Nat, scmp b a = (scmp a b).swap := by
  intro a
  induction a with
  | nil => intro b; cases b <;> simp [scmp, Ordering.swap]
  | cons x as ih =>
    intro b
    cases b with
    | nil => simp [scmp, Ordering.swap]
    | cons y bs =>
      by_cases h1 : x < y
      · have h2 : ¬ y < x := by omega
        simp [scmp, h1, h2, Ordering.swap]
      · by_cases h2 : y < x
        · simp [scmp, h1, h2, Ordering.swap]
        · simp [scmp, h1, h2, ih]

theorem sle_total (a b : List Nat) : sle a b ∨ sle b a := by
  unfold sle
  rw [scmp_swap a b]
  cases scmp a b <;> simp [Ordering.swap]

theorem sle_antisymm {a b : List Nat} (h1 : sle a b) (h2 : sle b a) : a = b := by
  unfold sle at h1 h2
  rw [scmp_swap a b] at h2
  cases h : scmp a b with
  | lt => rw [h] at h2; simp [Ordering.swap] at h2
  | eq => exact (scmp_eq_iff a b).mp h
  | gt => exact absurd h h1

theorem slt_of_not_sle {a b : List Nat} (h : ¬ sle a b) : slt b a := by
  unfold sle at h
  unfold slt
  rw [scmp_swap a b]
  cases hab : scmp a b <;> simp_all [Ordering.swap]

theorem sle_of_slt {a b : List Nat} (h : slt a b) : sle a b := by
  unfold slt at h; unfold sle; rw [h]; simp

theorem sle_refl (a : List Nat) : sle a a := by
  unfold sle
  rw [(scmp_eq_iff a a).mpr rfl]
  simp

theorem slt_irrefl (a : List Nat) : ¬ slt a a := by
  unfold slt
  have := (scmp_eq_iff a a).mpr rfl
  simp [this]

theorem sle_trans : ∀ {a b c : List Nat}, sle a b → sle b c → sle a c := by
  unfold sle
  intro a
  induction a with
  | nil =>
    intro b c _ _
    cases c with
    | nil => simp [scmp]
    | cons z cs => simp [scmp]
  | cons x as ih =>
    intro b c hab hbc
    cases b with
    | nil => simp [scmp] at hab
    | cons y bs =>
      cases c with
      | nil => simp [scmp] at hbc
      | cons z cs =>
        simp only [scmp] at hab hbc ⊢
        by_cases hxy : x < y
        · -- x < y and y ≤ z bytes, so x < z
          by_cases hyz : y < z
          · have : x < z := by omega
            simp [this]
          · by_cases hzy : z < y
            · simp [hxy, hyz, hzy] at hbc
            · have : x < z := by omega
              simp [this]
        · by_cases hyx : y < x
          · simp [hxy, hyx] at hab
          · have hxy' : x = y := by omega
            subst hxy'
            by_cases hyz : x < z
            · simp [hyz]
            · by_cases hzy : z < x
              · simp [hyz, hzy] at hbc
              · have hxz : ¬ x < z := hyz
                simp [hxz, hzy] at hab hbc ⊢
                exact ih hab hbc

theorem slt_of_slt_of_sle {a b c : List Nat} (h1 : slt a b) (h2 : sle b c) : slt a c := by
  rcases sle_total c a with h | h
  · exfalso
    have hba : sle b a := sle_trans h2 h
    have : a = b := sle_antisymm (sle_of_slt h1) hba
    subst this
    exact slt_irrefl a h1
  · cases hc : scmp a c with
    | lt => exact hc
    | eq =>
      exfalso
      have : a = c := (scmp_eq_iff a c).mp hc
      subst this
      have : a = b := sle_antisymm (sle_of_slt h1) h2
      subst this
      exact slt_irrefl a h1
    | gt =>
      exfalso
      unfold sle at h
      exact h hc

/-- An element of the queue (`element_t`): a node identity (the address of
its embedded `struct list_head`) and the owned string value. -/
structure QElem where
  id : Nat
  value : List Nat
  deriving DecidableEq, Repr

/-- Ordering of elements by their stored value, as used by the sort. -/
def ele (e f : QElem) : Prop := sle e.value f.value

instance (e f : QElem) : Decidable (ele e f) := by unfold ele; infer_instance

/-- The ring's element sequence is sorted in ascending `strcmp` order. -/
def SortedV (l : List QElem) : Prop := l.Pairwise ele

instance (l : List QElem) : Decidable (SortedV l) := by
  unfold SortedV; infer_instance

/-- Fuel-indexed embedding of the merge loop of merge_sorted_singly
(queue.c lines 306-322).  The while loop runs at most length l1 + length l2
times, so that much fuel makes the first clause unreachable; structural
recursion on the fuel keeps the definition kernel-computable. -/
def msAux : Nat → List QElem → List QElem → List QElem
  | _, [], l2 => l2
  | _, l1, [] => l1
  | 0, l1, l2 => l1 ++ l2
  | fuel + 1, a :: t1, b :: t2 =>
    if scmp a.value b.value = Ordering.gt then
      b :: msAux fuel (a :: t1) t2
    else
      a :: msAux fuel t1 (b :: t2)

theorem msAux_fuel : ∀ (f1 f2 : Nat) (l1 l2 : List QElem),
    l1.length + l2.length ≤ f1 → l1.length + l2.length ≤ f2 →
    msAux f1 l1 l2 = msAux f2 l1 l2 := by
  intro f1
  induction f1 with
  | zero =>
    intro f2 l1 l2 h1 _
    cases l1 with
    | nil => simp [msAux]
    | cons a t1 => cases l2 with
      | nil => simp [msAux]
      | cons b t2 => simp at h1
  | succ f ih =>
    intro f2 l1 l2 h1 h2
    cases l1 with
    | nil => simp [msAux]
    | cons a t1 =>
      cases l2 with
      | nil => simp [msAux]
      | cons b t2 =>
        cases f2 with
        | zero => simp at h2
        | succ g =>
          simp only [msAux]
          simp only [List.length_cons] at h1 h2
          by_cases hc : scmp a.value b.value = Ordering.gt
          · simp only [hc, if_pos]
            rw [ih g (a :: t1) t2 (by simp; omega) (by simp; omega)]
          · simp only [hc, if_neg, if_false]
            rw [ih g t1 (b :: t2) (by simp; omega) (by simp; omega)]

/-- Embedding of merge_sorted_singly (queue.c lines 306-322): two-pointer
merge of singly-linked runs; the run whose head compares strcmp lessequal 0
is taken first (ties go to the first argument, the lower-indexed run). -/
def merge_sorted_singly (l1 l2 : List QElem) : List QElem :=
  msAux (l1.length + l2.length) l1 l2

theorem merge_nil_left (l2 : List QElem) : merge_sorted_singly [] l2 = l2 := by
  simp [merge_sorted_singly, msAux]

theorem merge_nil_right (l1 : List QElem) : merge_sorted_singly l1 [] = l1 := by
  cases l1 <;> simp [merge_sorted_singly, msAux]

theorem merge_cons_cons (a b : QElem) (t1 t2 : List QElem) :
    merge_sorted_singly (a :: t1) (b :: t2) =
      if scmp a.value b.value = Ordering.gt then
        b :: merge_sorted_singly (a :: t1) t2
      else
        a :: merge_sorted_singly t1 (b :: t2) := by
  show msAux ((a :: t1).length + (b :: t2).length) _ _ = _
  have hlen : (a :: t1).length + (b :: t2).length
      = (t1.length + 1 + t2.length) + 1 := by simp; omega
  rw [hlen]
  simp only [msAux]
  by_cases hc : scmp a.value b.value = Ordering.gt
  · simp only [hc, if_pos]
    unfold merge_sorted_singly
    rw [msAux_fuel (t1.length + 1 + t2.length) ((a :: t1).length + t2.length)
      (a :: t1) t2 (by simp only [List.length_cons]; omega)
      (by simp only [List.length_cons]; omega)]
  · simp only [hc, if_neg, if_false]
    unfold merge_sorted_singly
    rw [msAux_fuel (t1.length + 1 + t2.length) (t1.length + (b :: t2).length)
      t1 (b :: t2) (by simp only [List.length_cons]; omega)
      (by simp only [List.length_cons]; omega)]

/-- Embedding of final_merge (queue.c lines 325-345): merges the last two
runs in the same order as merge_sorted_singly while rebuilding the prev
pointers and re-closing the ring around the sentinel; on the element
sequence it is the same merge. -/
def final_merge (l1 l2 : List QElem) : List QElem :=
  msAux (l1.length + l2.length) l1 l2

theorem final_merge_eq (l1 l2 : List QElem) :
    final_merge l1 l2 = merge_sorted_singly l1 l2 := rfl

/-- One folding round of q_sort (queue.c lines 281-282): for i from 0 and
j from n-1 while i < j, run i becomes the merge of runs i and j; with n
runs this merges the first n/2 runs with the last n/2 runs in reverse
order, and when n is odd the middle run survives unchanged. -/
def foldRound (ls : List (List QElem)) : List (List QElem) :=
  List.zipWith merge_sorted_singly
      (ls.take (ls.length / 2)) ((ls.drop ((ls.length + 1) / 2)).reverse)
    ++ (ls.drop (ls.length / 2)).take (ls.length % 2)

theorem foldRound_length (ls : List (List QElem)) :
    (foldRound ls).length = (ls.length + 1) / 2 := by
  simp [foldRound]
  omega

/-- Fuel-indexed outer loop of q_sort (queue.c line 280): keep folding
while more than two runs remain.  Each round at least halves the run
count, so fuel equal to the initial run count suffices. -/
def srAux : Nat → List (List QElem) → List (List QElem)
  | 0, ls => ls
  | fuel + 1, ls => if 2 < ls.length then srAux fuel (foldRound ls) else ls

theorem srAux_fuel : ∀ (f1 f2 : Nat) (ls : List (List QElem)),
    ls.length ≤ f1 → ls.length ≤ f2 → srAux f1 ls = srAux f2 ls := by
  intro f1
  induction f1 with
  | zero =>
    intro f2 ls h1 _
    have hls : ls.length = 0 := by omega
    cases f2 with
    | zero => rfl
    | succ g =>
      simp only [srAux]
      rw [if_neg (by omega)]
  | succ f ih =>
    intro f2 ls h1 h2
    by_cases hlen : 2 < ls.length
    · cases f2 with
      | zero => omega
      | succ g =>
        simp only [srAux, if_pos hlen]
        exact ih g (foldRound ls) (by rw [foldRound_length]; omega)
          (by rw [foldRound_length]; omega)
    · cases f2 with
      | zero =>
        simp only [srAux, if_neg hlen]
      | succ g =>
        simp only [srAux, if_neg hlen]

/-- The run-folding phase of q_sort, with its canonical fuel. -/
def sortRounds (ls : List (List QElem)) : List (List QElem) :=
  srAux ls.length ls

theorem sortRounds_eq (ls : List (List QElem)) :
    sortRounds ls = if 2 < ls.length then sortRounds (foldRound ls) else ls := by
  unfold sortRounds
  by_cases h : 2 < ls.length
  · rw [if_pos h]
    cases hn : ls.length with
    | zero => omega
    | succ m =>
      simp only [srAux]
      rw [if_pos h]
      exact srAux_fuel m (foldRound ls).length (foldRound ls)
        (by rw [foldRound_length]; omega) (le_refl _)
  · rw [if_neg h]
    cases hn : ls.length with
    | zero => rfl
    | succ m =>
      simp only [srAux]
      rw [if_neg h]

/-- Embedding of q_sort (queue.c lines 268-285): a ring of fewer than two
elements is left untouched; otherwise the ring is split into singleton
singly-linked runs in original order, the runs are folded while more than
two remain, and final_merge rebuilds the ring from the last two runs. -/
def q_sort (l : List QElem) : List QElem :=
  if l.length ≤ 1 then l
  else
    match sortRounds (l.map fun e => [e]) with
    | [] => []
    | [a] => a
    | a :: b :: _ => final_merge a b

/-- q_sort including the NULL-queue guard of the C code. -/
def q_sort_c (q : Option (List QElem)) : Option (List QElem) :=
  match q with
  | none => none
  | some l => some (q_sort l)

example : q_sort [⟨0, [98]⟩, ⟨1, [97]⟩, ⟨2, [99]⟩, ⟨3, [97]⟩]
    = [⟨3, [97]⟩, ⟨1, [97]⟩, ⟨0, [98]⟩, ⟨2, [99]⟩] := by decide

example : q_sort [⟨0, [97]⟩, ⟨1, [97]⟩, ⟨2, [97]⟩]
    = [⟨0, [97]⟩, ⟨2, [97]⟩, ⟨1, [97]⟩] := by decide

example : q_sort [⟨0, [99]⟩, ⟨1, [98]⟩, ⟨2, [97]⟩, ⟨3, [97,97]⟩, ⟨4, [100]⟩]
    = [⟨2, [97]⟩, ⟨3, [97,97]⟩, ⟨1, [98]⟩, ⟨0, [99]⟩, ⟨4, [100]⟩] := by decide

/-- Embedding of q_insert_head (queue.c lines 56-75): allocate a fresh
element carrying a copy of the string and splice it right after the
sentinel (allocation is modelled as always succeeding). -/
def q_insert_head (l : List QElem) (e : QElem) : List QElem := e :: l

/-- Embedding of q_insert_tail (queue.c lines 84-103): splice the fresh
element right before the sentinel. -/
def q_insert_tail (l : List QElem) (e : QElem) : List QElem := l ++ [e]

/-- Embedding of strnlen(s, m): the number of bytes before the terminator,
capped at m. -/
def strnlen : List Nat → Nat → Nat
  | _, 0 => 0
  | [], _ => 0
  | c :: cs, m + 1 => if c = 0 then 0 else strnlen cs m + 1

/-- Width of size_t on the target platform. -/
def U64 : Nat := 2 ^ 64

/-- The bytes the remove functions write into the caller buffer sp
(queue.c lines 125-128 and 143-146): len = strnlen(value, bufsize - 1)
computed in size_t arithmetic (so bufsize = 0 wraps to 2^64 - 1), then
len bytes of the value followed by a terminator. -/
def removeCopy (value : List Nat) (bufsize : Nat) : List Nat :=
  let len := strnlen value ((bufsize + U64 - 1) % U64)
  value.take len ++ [0]

/-- Embedding of q_remove_head (queue.c lines 119-131) with a non-null
output buffer: on a non-empty ring, unlink the first element and report
the element, the bytes written into sp, and the remaining ring. -/
def q_remove_head (l : List QElem) (bufsize : Nat) :
    Option (QElem × List Nat × List QElem) :=
  match l with
  | [] => none
  | e :: rest => some (e, removeCopy e.value bufsize, rest)

/-- Embedding of q_remove_tail (queue.c lines 137-149) with a non-null
output buffer: same as q_remove_head at the other ring boundary. -/
def q_remove_tail (l : List QElem) (bufsize : Nat) :
    Option (QElem × List Nat × List QElem) :=
  match l.getLast? with
  | none => none
  | some e => some (e, removeCopy e.value bufsize, l.dropLast)

/-- Fuel-indexed embedding of the cursor loop of q_delete_mid (queue.c
lines 188-193) on element indices: forwd starts at index f, backwd at
index b; advance forwd, stop if the cursors met, otherwise retreat backwd.
The loop body runs at most b - f times, so fuel covering that suffices. -/
def meetAux : Nat → Nat → Nat → Nat
  | 0, f, _ => f
  | fuel + 1, f, b =>
    if f = b then f
    else if f + 1 = b then b
    else meetAux fuel (f + 1) (b - 1)

theorem meetAux_eq (fuel f b : Nat) (hfb : f ≤ b) (hfuel : b - f ≤ fuel) :
    meetAux fuel f b = (f + b + 1) / 2 := by
  induction fuel generalizing f b with
  | zero =>
    have : f = b := by omega
    subst this
    simp only [meetAux]
    omega
  | succ g ih =>
    simp only [meetAux]
    by_cases h1 : f = b
    · subst h1; rw [if_pos rfl]; omega
    · rw [if_neg h1]
      by_cases h2 : f + 1 = b
      · rw [if_pos h2]; omega
      · rw [if_neg h2]
        rw [ih (f + 1) (b - 1) (by omega) (by omega)]
        omega

/-- Embedding of q_delete_mid (queue.c lines 183-198): false and no
mutation on an empty ring; otherwise the two cursors meet at one element,
which is unlinked and released. -/
def q_delete_mid (l : List QElem) : Bool × List QElem :=
  match l with
  | [] => (false, [])
  | _ :: _ => (true, l.eraseIdx (meetAux l.length 0 (l.length - 1)))

/-- q_delete_mid including the NULL-queue guard. -/
def q_delete_mid_c (q : Option (List QElem)) : Bool × Option (List QElem) :=
  match q with
  | none => (false, none)
  | some l =>
    let r := q_delete_mid l
    (r.1, some r.2)

example : q_delete_mid [⟨0,[97]⟩, ⟨1,[98]⟩, ⟨2,[99]⟩, ⟨3,[100]⟩, ⟨4,[101]⟩, ⟨5,[102]⟩]
    = (true, [⟨0,[97]⟩, ⟨1,[98]⟩, ⟨2,[99]⟩, ⟨4,[101]⟩, ⟨5,[102]⟩]) := by decide

example : q_delete_mid [⟨0,[97]⟩, ⟨1,[98]⟩, ⟨2,[99]⟩, ⟨3,[100]⟩, ⟨4,[101]⟩]
    = (true, [⟨0,[97]⟩, ⟨1,[98]⟩, ⟨3,[100]⟩, ⟨4,[101]⟩]) := by decide

/-- Fuel-indexed embedding of the scan of q_delete_dup (queue.c lines
217-229): at each position, if the next element's value equals the current
one, the whole maximal run of that value (current node included) is moved
to the trashcan and the scan resumes after the run; otherwise the position
is kept.  One unit of fuel per element suffices. -/
def ddAux : Nat → List QElem → List QElem
  | 0, l => l
  | _ + 1, [] => []
  | _ + 1, [x] => [x]
  | fuel + 1, x :: y :: rest2 =>
    if x.value = y.value then
      ddAux fuel ((y :: rest2).dropWhile (fun e => e.value = x.value))
    else
      x :: ddAux fuel (y :: rest2)

/-- Embedding of q_delete_dup (queue.c lines 209-232) including the guard
of line 211: false on a NULL or empty ring (the trashcan allocation is
modelled as succeeding). -/
def q_delete_dup_c (q : Option (List QElem)) : Bool × Option (List QElem) :=
  match q with
  | none => (false, none)
  | some [] => (false, some [])
  | some l => (true, some (ddAux l.length l))

example : q_delete_dup_c (some
    [⟨0,[97]⟩, ⟨1,[97]⟩, ⟨2,[98]⟩, ⟨3,[99]⟩, ⟨4,[99]⟩, ⟨5,[99]⟩])
    = (true, some [⟨2,[98]⟩]) := by decide

/-- Embedding of q_swap (queue.c lines 237-244): walk the ring two nodes
at a time, relinking each adjacent pair via swap_pair; fewer than two
remaining nodes are left in place. -/
def q_swap : List QElem → List QElem
  | a :: b :: rest => b :: a :: q_swap rest
  | l => l

/-- q_swap including the NULL-queue guard. -/
def q_swap_c (q : Option (List QElem)) : Option (List QElem) :=
  match q with
  | none => none
  | some l => some (q_swap l)

example : q_swap [⟨0,[97]⟩, ⟨1,[98]⟩, ⟨2,[99]⟩, ⟨3,[100]⟩, ⟨4,[101]⟩]
    = [⟨1,[98]⟩, ⟨0,[97]⟩, ⟨3,[100]⟩, ⟨2,[99]⟩, ⟨4,[101]⟩] := by decide

/-- Effect of q_reverse (queue.c lines 253-260) on the element sequence:
swapping the next and prev fields of every node (sentinel included)
reverses the traversal order. -/
def q_reverse (l : List QElem) : List QElem := l.reverse

/-! ### The pointer structure of the ring

A `struct list_head` field assignment is embedded as a pair of total
functions on node identities; nodes outside the ring are mapped to
themselves. -/

/-- The next and prev fields of every node. -/
structure RingP where
  next : Nat → Nat
  prev : Nat → Nat

/-- A single pointer store: field f of node x receives v. -/
def fupd (f : Nat → Nat) (x v : Nat) : Nat → Nat :=
  fun y => if y = x then v else f y

/-- Successor in the cyclic order given by the listing c. -/
def cycSucc (c : List Nat) (x : Nat) : Nat :=
  if x ∈ c then c.getD ((c.indexOf x + 1) % c.length) x else x

/-- Predecessor in the cyclic order given by the listing c. -/
def cycPred (c : List Nat) (x : Nat) : Nat :=
  if x ∈ c then c.getD ((c.indexOf x + (c.length - 1)) % c.length) x else x

/-- The listing of the ring's nodes in forward order: the sentinel s
followed by the node of every element. -/
def ringCyc (s : Nat) (l : List QElem) : List Nat := s :: l.map QElem.id

/-- The pointer structure of a valid ring holding the sequence l behind
sentinel s. -/
def mkRing (s : Nat) (l : List QElem) : RingP :=
  { next := cycSucc (ringCyc s l), prev := cycPred (ringCyc s l) }

/-- The node identities visited by n forward steps that start at
sentinel s (the traversal of list_for_each). -/
def ringSeq (r : RingP) (s : Nat) (n : Nat) : List Nat :=
  (List.range n).map (fun k => r.next^[k + 1] s)

/-- The ring invariant of the specification: every node reachable from
the sentinel satisfies x.next.prev == x and x.prev.next == x, and the
forward traversal that leaves the sentinel passes through exactly N
element nodes before first returning to the sentinel. -/
def RingInv (s : Nat) (N : Nat) (r : RingP) : Prop :=
  (∀ k, k ≤ N → r.prev (r.next (r.next^[k] s)) = r.next^[k] s
      ∧ r.next (r.prev (r.next^[k] s)) = r.next^[k] s)
  ∧ r.next^[N] (r.next s) = s
  ∧ ∀ k, k < N → r.next^[k] (r.next s) ≠ s

theorem cycSucc_getD {c : List Nat} (hnd : c.Nodup) {i : Nat} (hi : i < c.length) :
    cycSucc c (c.getD i 0) = c.getD ((i + 1) % c.length) 0 := by
  rw [List.getD_eq_getElem _ _ hi]
  unfold cycSucc
  rw [if_pos (List.getElem_mem hi)]
  rw [List.indexOf_getElem hnd i hi]
  have hlt : (i + 1) % c.length < c.length := Nat.mod_lt _ (by omega)
  rw [List.getD_eq_getElem _ _ hlt, List.getD_eq_getElem _ _ hlt]

theorem cycPred_getD {c : List Nat} (hnd : c.Nodup) {i : Nat} (hi : i < c.length) :
    cycPred c (c.getD i 0) = c.getD ((i + (c.length - 1)) % c.length) 0 := by
  rw [List.getD_eq_getElem _ _ hi]
  unfold cycPred
  rw [if_pos (List.getElem_mem hi)]
  rw [List.indexOf_getElem hnd i hi]
  have hlt : (i + (c.length - 1)) % c.length < c.length := Nat.mod_lt _ (by omega)
  rw [List.getD_eq_getElem _ _ hlt, List.getD_eq_getElem _ _ hlt]

theorem cycSucc_iterate {c : List Nat} (hnd : c.Nodup) (hne : c ≠ []) (k : Nat) :
    (cycSucc c)^[k] (c.getD 0 0) = c.getD (k % c.length) 0 := by
  have hlen : 0 < c.length := List.length_pos.mpr hne
  induction k with
  | zero => simp [Nat.mod_eq_of_lt hlen]
  | succ m ih =>
    rw [Function.iterate_succ_apply', ih]
    rw [cycSucc_getD hnd (Nat.mod_lt _ (by omega))]
    rw [Nat.mod_add_mod]

theorem cycPred_iterate {c : List Nat} (hnd : c.Nodup) (hne : c ≠ [])
    {k : Nat} (hk1 : 1 ≤ k) (hk2 : k ≤ c.length) :
    (cycPred c)^[k] (c.getD 0 0) = c.getD (c.length - k) 0 := by
  have hlen : 0 < c.length := List.length_pos.mpr hne
  induction k with
  | zero => omega
  | succ m ih =>
    cases Nat.eq_or_lt_of_le hk1 with
    | inl h1 =>
      -- k = 1
      have hm : m = 0 := by omega
      subst hm
      rw [Function.iterate_succ_apply', Function.iterate_zero_apply]
      rw [cycPred_getD hnd hlen]
      congr 1
      rw [Nat.zero_add, Nat.mod_eq_of_lt (by omega)]
    | inr h1 =>
      have hm1 : 1 ≤ m := by omega
      rw [Function.iterate_succ_apply', ih hm1 (by omega)]
      rw [cycPred_getD hnd (by omega)]
      congr 1
      have : c.length - m + (c.length - 1) = c.length + (c.length - (m + 1)) := by
        omega
      rw [this, Nat.add_comm c.length _, Nat.add_mod_right,
        Nat.mod_eq_of_lt (by omega)]

theorem cyc_prev_succ {c : List Nat} (hnd : c.Nodup) {i : Nat} (hi : i < c.length) :
    cycPred c (cycSucc c (c.getD i 0)) = c.getD i 0 := by
  have hlen : 0 < c.length := by omega
  rw [cycSucc_getD hnd hi, cycPred_getD hnd (Nat.mod_lt _ hlen)]
  congr 1
  rw [Nat.mod_add_mod]
  have he : i + 1 + (c.length - 1) = i + c.length := by omega
  rw [he, Nat.add_mod_right, Nat.mod_eq_of_lt hi]

theorem cyc_succ_prev {c : List Nat} (hnd : c.Nodup) {i : Nat} (hi : i < c.length) :
    cycSucc c (cycPred c (c.getD i 0)) = c.getD i 0 := by
  have hlen : 0 < c.length := by omega
  rw [cycPred_getD hnd hi, cycSucc_getD hnd (Nat.mod_lt _ hlen)]
  congr 1
  rw [Nat.mod_add_mod]
  have he : i + (c.length - 1) + 1 = i + c.length := by omega
  rw [he, Nat.add_mod_right, Nat.mod_eq_of_lt hi]

theorem ringCyc_ne_nil (s : Nat) (l : List QElem) : ringCyc s l ≠ [] := by
  simp [ringCyc]

theorem ringCyc_length (s : Nat) (l : List QElem) :
    (ringCyc s l).length = l.length + 1 := by simp [ringCyc]

theorem mkRing_next_iterate (s : Nat) (l : List QElem)
    (hnd : (ringCyc s l).Nodup) (k : Nat) :
    (mkRing s l).next^[k] s = (ringCyc s l).getD (k % (ringCyc s l).length) 0 := by
  have h0 : (ringCyc s l).getD 0 0 = s := rfl
  have := cycSucc_iterate hnd (ringCyc_ne_nil s l) k
  rw [h0] at this
  exact this

/-- The invariant of section 3 of the specification holds of the pointer
structure of every ring whose sentinel and element nodes are pairwise
distinct. -/
theorem RingInv_mkRing (s : Nat) (l : List QElem)
    (hnd : (ringCyc s l).Nodup) : RingInv s l.length (mkRing s l) := by
  have hlen := ringCyc_length s l
  have hpos : 0 < (ringCyc s l).length := by omega
  refine ⟨?_, ?_, ?_⟩
  · intro k hk
    rw [mkRing_next_iterate s l hnd k]
    have hklt : k % (ringCyc s l).length < (ringCyc s l).length :=
      Nat.mod_lt _ hpos
    constructor
    · exact cyc_prev_succ hnd hklt
    · exact cyc_succ_prev hnd hklt
  · rw [← Function.iterate_succ_apply]
    rw [mkRing_next_iterate s l hnd (l.length + 1)]
    rw [← hlen, Nat.mod_self]
    rfl
  · intro k hk
    rw [← Function.iterate_succ_apply]
    rw [mkRing_next_iterate s l hnd (k + 1)]
    have hk1 : k + 1 < (ringCyc s l).length := by omega
    rw [Nat.mod_eq_of_lt hk1]
    intro hcon
    rw [List.getD_eq_getElem _ _ hk1] at hcon
    have hinj : (ringCyc s l).get ⟨k + 1, hk1⟩ = (ringCyc s l).get ⟨0, hpos⟩ := hcon
    have := (List.Nodup.getElem_inj_iff hnd).mp hinj
    omega

/-- Embedding of swapptr (queue.c lines 299-304): the three XOR stores
that exchange two pointer-sized words without a temporary. -/
def swapptr (a b : Nat) : Nat × Nat :=
  let a1 := a ^^^ b
  let b1 := b ^^^ a1
  let a2 := a1 ^^^ b1
  (a2, b1)

theorem swapptr_eq (a b : Nat) : swapptr a b = (b, a) := by
  show (a ^^^ b ^^^ (b ^^^ (a ^^^ b)), b ^^^ (a ^^^ b)) = (b, a)
  have hb : b ^^^ (a ^^^ b) = a := by
    rw [Nat.xor_comm a b, ← Nat.xor_assoc, Nat.xor_self, Nat.zero_xor]
  rw [hb]
  have ha : a ^^^ b ^^^ a = b := by
    rw [Nat.xor_comm a b, Nat.xor_assoc, Nat.xor_self, Nat.xor_zero]
  rw [ha]

/-- Embedding of q_reverse (queue.c lines 253-260) on the pointer
structure: every node of the ring (sentinel included) has its next and
prev fields exchanged by swapptr; a node outside the ring keeps its two
self-pointers, for which the exchange is the identity, so the swap can be
stated on every node at once. -/
def ptrReverse (r : RingP) : RingP :=
  { next := fun x => (swapptr (r.next x) (r.prev x)).1,
    prev := fun x => (swapptr (r.next x) (r.prev x)).2 }

theorem ptrReverse_next (r : RingP) : (ptrReverse r).next = r.prev := by
  funext x
  show (swapptr (r.next x) (r.prev x)).1 = r.prev x
  rw [swapptr_eq]

theorem ptrReverse_prev (r : RingP) : (ptrReverse r).prev = r.next := by
  funext x
  show (swapptr (r.next x) (r.prev x)).2 = r.next x
  rw [swapptr_eq]

theorem ptrReverse_ptrReverse (r : RingP) : ptrReverse (ptrReverse r) = r := by
  cases r with
  | mk n p => simp [ptrReverse, swapptr_eq]

/-- Embedding of list_del_init (list.h): unlink node x by routing its
neighbors around it, then re-initialize x to a self-loop; the two INIT
stores come last, exactly as in the C. -/
def list_del_init (r : RingP) (x : Nat) : RingP :=
  { next := fupd (fupd r.next (r.prev x) (r.next x)) x x,
    prev := fupd (fupd r.prev (r.next x) (r.prev x)) x x }

/-- The pointer effect of q_remove_head (queue.c line 124):
list_del_init(head->next). -/
def q_remove_head_ptr (r : RingP) (s : Nat) : RingP :=
  list_del_init r (r.next s)

/-- The pointer effect of q_remove_tail (queue.c line 142):
list_del_init(head->prev). -/
def q_remove_tail_ptr (r : RingP) (s : Nat) : RingP :=
  list_del_init r (r.prev s)

theorem list_del_init_self_next (r : RingP) (x : Nat) :
    (list_del_init r x).next x = x := by
  simp [list_del_init, fupd]

theorem list_del_init_self_prev (r : RingP) (x : Nat) :
    (list_del_init r x).prev x = x := by
  simp [list_del_init, fupd]

theorem mkRing_next_sentinel (s : Nat) (e : QElem) (l : List QElem) :
    (mkRing s (e :: l)).next s = e.id := by
  show cycSucc (ringCyc s (e :: l)) s = e.id
  unfold cycSucc
  rw [if_pos (by simp [ringCyc])]
  have hidx : (ringCyc s (e :: l)).indexOf s = 0 := by
    simp [ringCyc]
  rw [hidx, ringCyc_length]
  rw [Nat.mod_eq_of_lt (by simp)]
  rfl

theorem mkRing_prev_sentinel (s : Nat) (l : List QElem) (e : QElem) :
    (mkRing s (l ++ [e])).prev s = e.id := by
  show cycPred (ringCyc s (l ++ [e])) s = e.id
  unfold cycPred
  rw [if_pos (by simp [ringCyc])]
  have hidx : (ringCyc s (l ++ [e])).indexOf s = 0 := by
    simp [ringCyc]
  have hlen : (ringCyc s (l ++ [e])).length = l.length + 2 := by
    simp [ringCyc]
  rw [hidx, hlen]
  have hmod : (0 + (l.length + 2 - 1)) % (l.length + 2) = l.length + 1 := by
    have h1 : 0 + (l.length + 2 - 1) = l.length + 1 := by omega
    rw [h1]
    exact Nat.mod_eq_of_lt (by omega)
  rw [hmod]
  have hlt : l.length + 1 < (ringCyc s (l ++ [e])).length := by
    simp [ringCyc]
  rw [List.getD_eq_getElem _ _ hlt]
  show (s :: (l ++ [e]).map QElem.id).get ⟨l.length + 1, hlt⟩ = e.id
  rw [List.get_cons_succ]
  simp

theorem ringSeq_mkRing (s : Nat) (l : List QElem)
    (hnd : (ringCyc s l).Nodup) :
    ringSeq (mkRing s l) s l.length = l.map QElem.id := by
  apply List.ext_getElem
  · simp [ringSeq]
  · intro i h1 h2
    simp only [ringSeq, List.getElem_map, List.getElem_range]
    rw [mkRing_next_iterate s l hnd (i + 1)]
    have hlen := ringCyc_length s l
    have hi : i < l.length := by simpa using h2
    rw [Nat.mod_eq_of_lt (by omega)]
    have hlt : i + 1 < (ringCyc s l).length := by omega
    rw [List.getD_eq_getElem _ _ hlt]
    show (s :: l.map QElem.id).get ⟨i + 1, hlt⟩ = _
    rw [List.get_cons_succ]
    simp

theorem ringSeq_reverse_mkRing (s : Nat) (l : List QElem)
    (hnd : (ringCyc s l).Nodup) :
    ringSeq (ptrReverse (mkRing s l)) s l.length = (l.map QElem.id).reverse := by
  apply List.ext_getElem
  · simp [ringSeq]
  · intro i h1 h2
    simp only [ringSeq, List.getElem_map, List.getElem_range]
    rw [ptrReverse_next]
    have hlen := ringCyc_length s l
    have hi : i < l.length := by simpa using h2
    have hit := cycPred_iterate hnd (ringCyc_ne_nil s l)
      (show 1 ≤ i + 1 by omega) (show i + 1 ≤ (ringCyc s l).length by omega)
    have hit' : (mkRing s l).prev^[i + 1] s
        = (ringCyc s l).getD ((ringCyc s l).length - (i + 1)) 0 := hit
    rw [hit']
    have hidx : (ringCyc s l).length - (i + 1) = l.length - i := by omega
    rw [hidx]
    have hlt : l.length - i < (ringCyc s l).length := by omega
    rw [List.getD_eq_getElem _ _ hlt]
    have hpos : ∃ j, l.length - i = j + 1 := ⟨l.length - i - 1, by omega⟩
    obtain ⟨j, hj⟩ := hpos
    rw [List.getElem_reverse]
    have hjlt : j < (l.map QElem.id).length := by simp; omega
    show (s :: l.map QElem.id).get ⟨l.length - i, hlt⟩ = _
    have : (⟨l.length - i, hlt⟩ : Fin (s :: l.map QElem.id).length)
        = ⟨j + 1, by rw [← hj]; exact hlt⟩ := by
      apply Fin.ext
      simp [hj]
    rw [this, List.get_cons_succ]
    show (l.map QElem.id).get ⟨j, by omega⟩ = _
    have hje : (l.map QElem.id).length - 1 - i = j := by simp; omega
    simp only [List.get_eq_getElem]
    apply Option.some.inj
    rw [← List.getElem?_eq_getElem, ← List.getElem?_eq_getElem, hje]

/-! ### Correctness lemmas for the merges -/

theorem merge_perm : ∀ l1 l2 : List QElem,
    (merge_sorted_singly l1 l2).Perm (l1 ++ l2) := by
  intro l1
  induction l1 with
  | nil => intro l2; rw [merge_nil_left]; simp
  | cons a t1 ih1 =>
    intro l2
    induction l2 with
    | nil => rw [merge_nil_right]; simp
    | cons b t2 ih2 =>
      rw [merge_cons_cons]
      by_cases hc : scmp a.value b.value = Ordering.gt
      · rw [if_pos hc]
        refine List.Perm.trans (List.Perm.cons b ih2) ?_
        exact List.perm_middle.symm
      · rw [if_neg hc]
        exact List.Perm.cons a (ih1 (b :: t2))

theorem mem_merge {x : QElem} {l1 l2 : List QElem} :
    x ∈ merge_sorted_singly l1 l2 ↔ x ∈ l1 ∨ x ∈ l2 := by
  rw [(merge_perm l1 l2).mem_iff]
  simp

theorem merge_sortedV : ∀ l1 l2 : List QElem,
    SortedV l1 → SortedV l2 → SortedV (merge_sorted_singly l1 l2) := by
  intro l1
  induction l1 with
  | nil => intro l2 _ h2; rw [merge_nil_left]; exact h2
  | cons a t1 ih1 =>
    intro l2 h1 h2
    induction l2 with
    | nil => rw [merge_nil_right]; exact h1
    | cons b t2 ih2 =>
      rw [merge_cons_cons]
      rcases List.pairwise_cons.mp h1 with ⟨ha, ht1⟩
      rcases List.pairwise_cons.mp h2 with ⟨hb, ht2⟩
      by_cases hc : scmp a.value b.value = Ordering.gt
      · rw [if_pos hc]
        refine List.pairwise_cons.mpr ⟨?_, ih2 ht2⟩
        intro y hy
        rcases mem_merge.mp hy with hy1 | hy2
        · have hba : sle b.value a.value :=
            sle_of_slt (slt_of_not_sle (show ¬ sle a.value b.value from
              fun hn => hn hc))
          rcases hy1 with _ | hyt1
          · exact hba
          · exact sle_trans hba (ha y (by assumption))
        · exact hb y hy2
      · rw [if_neg hc]
        refine List.pairwise_cons.mpr ⟨?_, ih1 (b :: t2) ht1 h2⟩
        intro y hy
        rcases mem_merge.mp hy with hy1 | hy2
        · exact ha y hy1
        · have hab : sle a.value b.value := hc
          rcases hy2 with _ | hyt2
          · exact hab
          · exact sle_trans hab (hb y (by assumption))

theorem not_value_mem_of_slt {v : List Nat} {a : QElem} {t : List QElem}
    (hs : SortedV (a :: t)) (hv : slt v a.value) :
    ∀ e ∈ a :: t, ¬ (e.value = v) := by
  intro e he hev
  rcases List.pairwise_cons.mp hs with ⟨ha, _⟩
  rcases he with _ | het
  · subst hev
    exact slt_irrefl _ hv
  · have : slt v e.value := slt_of_slt_of_sle hv (ha e (by assumption))
    subst hev
    exact slt_irrefl _ this

/-- Stability of a single merge: filtering the merge of two sorted runs by
any value gives the matches of the first (lower-indexed) run followed by
the matches of the second, each in their original internal order. -/
theorem merge_filter (v : List Nat) : ∀ l1 l2 : List QElem,
    SortedV l1 → SortedV l2 →
    (merge_sorted_singly l1 l2).filter (fun e => e.value = v)
      = l1.filter (fun e => e.value = v) ++ l2.filter (fun e => e.value = v) := by
  intro l1
  induction l1 with
  | nil => intro l2 _ _; rw [merge_nil_left]; simp
  | cons a t1 ih1 =>
    intro l2 h1 h2
    induction l2 with
    | nil => rw [merge_nil_right]; simp
    | cons b t2 ih2 =>
      rw [merge_cons_cons]
      rcases List.pairwise_cons.mp h2 with ⟨hb, ht2⟩
      by_cases hc : scmp a.value b.value = Ordering.gt
      · rw [if_pos hc]
        have hba : slt b.value a.value :=
          slt_of_not_sle (show ¬ sle a.value b.value from fun hn => hn hc)
        by_cases hbv : b.value = v
        · have hnone : (a :: t1).filter (fun e => e.value = v) = [] := by
            rw [List.filter_eq_nil_iff]
            intro e he
            simp only [decide_eq_true_eq]
            exact not_value_mem_of_slt h1 (hbv ▸ hba) e he
          rw [List.filter_cons_of_pos (by simp [hbv])]
          rw [ih2 ht2, hnone]
          simp [List.filter_cons_of_pos, hbv]
        · rw [@List.filter_cons_of_neg QElem (fun e => decide (e.value = v))
            b _ (by simp [hbv])]
          rw [ih2 ht2]
          rw [@List.filter_cons_of_neg QElem (fun e => decide (e.value = v))
            b t2 (by simp [hbv])]
      · rw [if_neg hc]
        rcases List.pairwise_cons.mp h1 with ⟨_, ht1⟩
        by_cases hav : a.value = v
        · rw [List.filter_cons_of_pos (by simp [hav])]
          rw [ih1 (b :: t2) ht1 h2]
          simp [List.filter_cons, hav]
        · rw [@List.filter_cons_of_neg QElem (fun e => decide (e.value = v))
            a _ (by simp [hav])]
          rw [ih1 (b :: t2) ht1 h2]
          rw [@List.filter_cons_of_neg QElem (fun e => decide (e.value = v))
            a t1 (by simp [hav])]

theorem flatten_zipWith_merge_perm : ∀ A B : List (List QElem),
    A.length = B.length →
    (List.zipWith merge_sorted_singly A B).flatten.Perm (A.flatten ++ B.flatten) := by
  intro A
  induction A with
  | nil => intro B h; cases B <;> simp at h ⊢
  | cons a A' ih =>
    intro B h
    cases B with
    | nil => simp at h
    | cons b B' =>
      simp only [List.zipWith_cons_cons, List.flatten_cons]
      have h' : A'.length = B'.length := by simpa using h
      refine List.Perm.trans (List.Perm.append (merge_perm a b) (ih B' h')) ?_
      simp only [List.append_assoc]
      refine List.Perm.append_left a ?_
      refine List.Perm.trans List.perm_append_comm ?_
      rw [List.append_assoc]
      exact List.Perm.append_left _ List.perm_append_comm

theorem foldRound_flatten_perm (ls : List (List QElem)) :
    (foldRound ls).flatten.Perm ls.flatten := by
  unfold foldRound
  set n := ls.length with hn
  set A := ls.take (n / 2) with hA
  set M := (ls.drop (n / 2)).take (n % 2) with hM
  set B := ls.drop ((n + 1) / 2) with hB
  have hlenAB : A.length = B.reverse.length := by
    rw [hA, hB]
    simp
    omega
  have hflat := flatten_zipWith_merge_perm _ _ hlenAB
  have hls : ls = A ++ (M ++ B) := by
    rw [hA, hM, hB]
    have h2 : ls.drop ((n + 1) / 2) = (ls.drop (n / 2)).drop (n % 2) := by
      rw [List.drop_drop]
      congr 1
      omega
    rw [h2, List.take_append_drop, List.take_append_drop]
  rw [List.flatten_append]
  refine List.Perm.trans (List.Perm.append_right _ hflat) ?_
  refine List.Perm.trans (List.Perm.append_right _
    (List.Perm.append_left _ (List.reverse_perm B).flatten)) ?_
  have hre : ls.flatten = A.flatten ++ (M.flatten ++ B.flatten) := by
    rw [hls, List.flatten_append, List.flatten_append]
  rw [hre, List.append_assoc]
  exact List.Perm.append_left _ List.perm_append_comm

theorem zipWith_merge_sorted : ∀ A B : List (List QElem),
    (∀ r ∈ A, SortedV r) → (∀ r ∈ B, SortedV r) →
    ∀ r ∈ List.zipWith merge_sorted_singly A B, SortedV r := by
  intro A
  induction A with
  | nil => intro B _ _ r hr; simp at hr
  | cons a A' ih =>
    intro B hA hB r hr
    cases B with
    | nil => simp at hr
    | cons b B' =>
      simp only [List.zipWith_cons_cons] at hr
      rcases List.mem_cons.mp hr with hr0 | hr'
      · subst hr0
        exact merge_sortedV a b (hA a (by simp)) (hB b (by simp))
      · exact ih B' (fun x hx => hA x (List.mem_cons_of_mem _ hx))
          (fun x hx => hB x (List.mem_cons_of_mem _ hx)) r hr'

theorem foldRound_sorted (ls : List (List QElem)) (h : ∀ r ∈ ls, SortedV r) :
    ∀ r ∈ foldRound ls, SortedV r := by
  intro r hr
  unfold foldRound at hr
  rcases List.mem_append.mp hr with h1 | h2
  · refine zipWith_merge_sorted _ _ ?_ ?_ r h1
    · intro x hx
      exact h x (List.take_subset _ _ hx)
    · intro x hx
      rw [List.mem_reverse] at hx
      exact h x (List.drop_subset _ _ hx)
  · exact h r (List.drop_subset _ _ (List.take_subset _ _ h2))

theorem sortRounds_flatten_perm_aux : ∀ (n : Nat) (ls : List (List QElem)),
    ls.length ≤ n → (sortRounds ls).flatten.Perm ls.flatten := by
  intro n
  induction n with
  | zero =>
    intro ls hlen
    rw [sortRounds_eq, if_neg (by omega)]
  | succ m ih =>
    intro ls hlen
    rw [sortRounds_eq]
    by_cases hl : 2 < ls.length
    · rw [if_pos hl]
      refine List.Perm.trans
        (ih (foldRound ls) (by rw [foldRound_length]; omega)) ?_
      exact foldRound_flatten_perm ls
    · rw [if_neg hl]

theorem sortRounds_flatten_perm (ls : List (List QElem)) :
    (sortRounds ls).flatten.Perm ls.flatten :=
  sortRounds_flatten_perm_aux ls.length ls (le_refl _)

theorem sortRounds_sorted_aux : ∀ (n : Nat) (ls : List (List QElem)),
    ls.length ≤ n → (∀ r ∈ ls, SortedV r) → ∀ r ∈ sortRounds ls, SortedV r := by
  intro n
  induction n with
  | zero =>
    intro ls hlen h
    rw [sortRounds_eq, if_neg (by omega)]
    exact h
  | succ m ih =>
    intro ls hlen h
    rw [sortRounds_eq]
    by_cases hl : 2 < ls.length
    · rw [if_pos hl]
      exact ih (foldRound ls) (by rw [foldRound_length]; omega)
        (foldRound_sorted ls h)
    · rw [if_neg hl]
      exact h

theorem sortRounds_sorted (ls : List (List QElem)) (h : ∀ r ∈ ls, SortedV r) :
    ∀ r ∈ sortRounds ls, SortedV r :=
  sortRounds_sorted_aux ls.length ls (le_refl _) h

theorem sortRounds_length_aux : ∀ (n : Nat) (ls : List (List QElem)),
    ls.length ≤ n → 2 ≤ ls.length → (sortRounds ls).length = 2 := by
  intro n
  induction n with
  | zero => intro ls hlen h2; omega
  | succ m ih =>
    intro ls hlen h2
    rw [sortRounds_eq]
    by_cases hl : 2 < ls.length
    · rw [if_pos hl]
      exact ih (foldRound ls) (by rw [foldRound_length]; omega)
        (by rw [foldRound_length]; omega)
    · rw [if_neg hl]
      omega

theorem sortRounds_length (ls : List (List QElem)) (h : 2 ≤ ls.length) :
    (sortRounds ls).length = 2 :=
  sortRounds_length_aux ls.length ls (le_refl _) h

theorem flatten_map_singleton (l : List QElem) :
    (l.map fun e => [e]).flatten = l := by
  induction l with
  | nil => rfl
  | cons x t ih => simp [ih]

theorem sortRounds_singletons_two (l : List QElem) (h : ¬ l.length ≤ 1) :
    ∃ a b, sortRounds (l.map fun e => [e]) = [a, b] := by
  have h2 : 2 ≤ (l.map fun e => [e]).length := by simp; omega
  have hlen2 := sortRounds_length (l.map fun e => [e]) h2
  cases hcase : sortRounds (l.map fun e => [e]) with
  | nil => rw [hcase] at hlen2; simp at hlen2
  | cons a t =>
    cases t with
    | nil => rw [hcase] at hlen2; simp at hlen2
    | cons b t2 =>
      cases t2 with
      | nil => exact ⟨a, b, rfl⟩
      | cons c t3 => rw [hcase] at hlen2; simp at hlen2

theorem q_sort_perm (l : List QElem) : (q_sort l).Perm l := by
  unfold q_sort
  by_cases h : l.length ≤ 1
  · rw [if_pos h]
  · rw [if_neg h]
    obtain ⟨a, b, hab⟩ := sortRounds_singletons_two l h
    rw [hab]
    show (final_merge a b).Perm l
    rw [final_merge_eq]
    refine List.Perm.trans (merge_perm a b) ?_
    have h1 : a ++ b = (sortRounds (l.map fun e => [e])).flatten := by
      rw [hab]
      simp
    rw [h1]
    refine List.Perm.trans (sortRounds_flatten_perm _) ?_
    rw [flatten_map_singleton]

theorem q_sort_sortedV (l : List QElem) : SortedV (q_sort l) := by
  unfold q_sort
  by_cases h : l.length ≤ 1
  · rw [if_pos h]
    cases l with
    | nil => exact List.Pairwise.nil
    | cons x t =>
      cases t with
      | nil => simp [SortedV]
      | cons y t2 => simp at h
  · rw [if_neg h]
    obtain ⟨a, b, hab⟩ := sortRounds_singletons_two l h
    rw [hab]
    show SortedV (final_merge a b)
    rw [final_merge_eq]
    have hall : ∀ r ∈ sortRounds (l.map fun e => [e]), SortedV r := by
      refine sortRounds_sorted _ ?_
      intro r hr
      rcases List.mem_map.mp hr with ⟨e, _, rfl⟩
      simp [SortedV]
    exact merge_sortedV a b (hall a (by rw [hab]; simp))
      (hall b (by rw [hab]; simp))

theorem q_swap_length : ∀ l : List QElem, (q_swap l).length = l.length := by
  intro l
  induction l using q_swap.induct with
  | case1 a b rest ih => simp [q_swap, ih]
  | case2 l h1 => cases l with
    | nil => rfl
    | cons a t =>
      cases t with
      | nil => rfl
      | cons b t2 => exact absurd rfl (h1 a b t2)

theorem q_swap_perm : ∀ l : List QElem, (q_swap l).Perm l := by
  intro l
  induction l using q_swap.induct with
  | case1 a b rest ih =>
    show (b :: a :: q_swap rest).Perm (a :: b :: rest)
    refine List.Perm.trans (List.Perm.swap a b _) ?_
    exact List.Perm.cons a (List.Perm.cons b ih)
  | case2 l h1 => cases l with
    | nil => rfl
    | cons a t =>
      cases t with
      | nil => rfl
      | cons b t2 => exact absurd rfl (h1 a b t2)

theorem q_swap_pair_getD : ∀ (k : Nat) (l : List QElem) (d : QElem),
    2 * k + 1 < l.length →
    (q_swap l).getD (2 * k) d = l.getD (2 * k + 1) d
    ∧ (q_swap l).getD (2 * k + 1) d = l.getD (2 * k) d := by
  intro k
  induction k with
  | zero =>
    intro l d h
    cases l with
    | nil => simp at h
    | cons a t =>
      cases t with
      | nil => simp at h
      | cons b t2 =>
        show ((b :: a :: q_swap t2).getD 0 d = _) ∧ ((b :: a :: q_swap t2).getD 1 d = _)
        simp
  | succ m ih =>
    intro l d h
    cases l with
    | nil => simp at h
    | cons a t =>
      cases t with
      | nil => simp at h
      | cons b t2 =>
        have hlen : 2 * m + 1 < t2.length := by
          simp [List.length_cons] at h
          omega
        have he1 : 2 * (m + 1) = 2 * m + 1 + 1 := by omega
        rw [he1]
        show ((b :: a :: q_swap t2).getD (2 * m + 1 + 1) d = _)
          ∧ ((b :: a :: q_swap t2).getD (2 * m + 1 + 1 + 1) d = _)
        simp only [List.getD_cons_succ]
        exact ih t2 d hlen

theorem q_swap_odd_last : ∀ (l : List QElem) (d : QElem),
    l.length % 2 = 1 →
    (q_swap l).getD (l.length - 1) d = l.getD (l.length - 1) d := by
  intro l
  induction l using q_swap.induct with
  | case1 a b rest ih =>
    intro d hodd
    have hrodd : rest.length % 2 = 1 := by
      simp [List.length_cons] at hodd ⊢
      omega
    have hrpos : 1 ≤ rest.length := by omega
    have hlen : (a :: b :: rest).length - 1 = rest.length - 1 + 1 + 1 := by
      simp [List.length_cons]
      omega
    rw [hlen]
    show (b :: a :: q_swap rest).getD (rest.length - 1 + 1 + 1) d
      = (a :: b :: rest).getD (rest.length - 1 + 1 + 1) d
    simp only [List.getD_cons_succ]
    exact ih d hrodd
  | case2 l h1 =>
    intro d _
    cases l with
    | nil => rfl
    | cons a t =>
      cases t with
      | nil => rfl
      | cons b t2 => exact absurd rfl (h1 a b t2)

/-- Number of elements of the ring carrying the value v. -/
def countV (v : List Nat) (l : List QElem) : Nat :=
  (l.filter (fun e => e.value = v)).length

theorem ddAux_fuel : ∀ (f1 f2 : Nat) (l : List QElem),
    l.length ≤ f1 → l.length ≤ f2 → ddAux f1 l = ddAux f2 l := by
  intro f1
  induction f1 with
  | zero =>
    intro f2 l h1 _
    have : l = [] := by
      cases l with
      | nil => rfl
      | cons x t => simp at h1
    subst this
    cases f2 <;> rfl
  | succ g ih =>
    intro f2 l h1 h2
    cases l with
    | nil => cases f2 <;> rfl
    | cons x rest =>
      cases f2 with
      | zero => simp at h2
      | succ g2 =>
        cases rest with
        | nil => rfl
        | cons y rest2 =>
          simp only [ddAux]
          simp only [List.length_cons] at h1 h2
          by_cases hv : x.value = y.value
          · rw [if_pos hv, if_pos hv]
            exact ih g2 _
              (le_trans (List.Sublist.length_le (List.dropWhile_sublist _))
                (by simp; omega))
              (le_trans (List.Sublist.length_le (List.dropWhile_sublist _))
                (by simp; omega))
          · rw [if_neg hv, if_neg hv]
            rw [ih g2 (y :: rest2) (by simp; omega) (by simp; omega)]

theorem ddAux_sublist : ∀ (f : Nat) (l : List QElem), (ddAux f l).Sublist l := by
  intro f
  induction f with
  | zero => intro l; cases l <;> exact List.Sublist.refl _
  | succ g ih =>
    intro l
    cases l with
    | nil => exact List.Sublist.refl _
    | cons x rest =>
      cases rest with
      | nil => exact List.Sublist.refl _
      | cons y rest2 =>
        simp only [ddAux]
        by_cases hv : x.value = y.value
        · rw [if_pos hv]
          refine List.Sublist.trans (ih _) ?_
          refine List.Sublist.trans (List.dropWhile_sublist _) ?_
          exact (List.sublist_cons_self x (y :: rest2))
        · rw [if_neg hv]
          exact List.Sublist.cons₂ x (ih (y :: rest2))

theorem val_ne_of_mem_dropWhile {x : QElem} {rest : List QElem}
    (hs : SortedV (x :: rest)) :
    ∀ e ∈ rest.dropWhile (fun e => e.value = x.value), e.value ≠ x.value := by
  induction rest with
  | nil => intro e he; simp at he
  | cons r rs ih =>
    intro e he
    by_cases hr : r.value = x.value
    · rw [List.dropWhile_cons_of_pos (by simp [hr])] at he
      refine ih ?_ e he
      exact List.Pairwise.sublist
        (List.Sublist.cons₂ x (List.sublist_cons_self r rs)) hs
    · rw [List.dropWhile_cons_of_neg (by simp [hr])] at he
      rcases List.pairwise_cons.mp hs with ⟨hx, hrs⟩
      rcases List.mem_cons.mp he with rfl | he2
      · exact hr
      · intro hev
        rcases List.pairwise_cons.mp hrs with ⟨hr2, _⟩
        have h1 : sle x.value r.value := hx r (by simp)
        have h2 : sle r.value e.value := hr2 e he2
        have h3 : sle e.value r.value := by
          rw [hev]
          exact h1
        have h4 : r.value = e.value := sle_antisymm h2 h3
        exact hr (by rw [h4, hev])

theorem countV_cons_ne (v : List Nat) (x : QElem) (l : List QElem)
    (h : ¬ x.value = v) : countV v (x :: l) = countV v l := by
  unfold countV
  rw [List.filter_cons_of_neg (by simp [h])]

theorem countV_cons_eq (v : List Nat) (x : QElem) (l : List QElem)
    (h : x.value = v) : countV v (x :: l) = countV v l + 1 := by
  unfold countV
  rw [List.filter_cons_of_pos (by simp [h])]
  simp

theorem countV_append (v : List Nat) (l1 l2 : List QElem) :
    countV v (l1 ++ l2) = countV v l1 + countV v l2 := by
  unfold countV
  rw [List.filter_append, List.length_append]

theorem countV_eq_zero (v : List Nat) (l : List QElem)
    (h : ∀ e ∈ l, e.value ≠ v) : countV v l = 0 := by
  unfold countV
  rw [List.filter_eq_nil_iff.mpr (by intro e he; simp [h e he])]
  rfl

theorem filter_countV_split (x : QElem) (T R L : List QElem)
    (hL : L = x :: (T ++ R))
    (hT : ∀ e ∈ T, e.value = x.value)
    (hx : ¬ countV x.value L = 1)
    (hR : ∀ e ∈ R, e.value ≠ x.value) :
    L.filter (fun e => countV e.value L = 1)
      = R.filter (fun e => countV e.value R = 1) := by
  subst hL
  rw [List.filter_cons_of_neg (by simp; exact hx)]
  rw [List.filter_append]
  have hTnil : T.filter
      (fun e => countV e.value (x :: (T ++ R)) = 1) = [] := by
    rw [List.filter_eq_nil_iff]
    intro e he
    simp only [decide_eq_true_eq]
    rw [hT e he]
    exact hx
  rw [hTnil, List.nil_append]
  apply List.filter_congr
  intro e he
  have hne : e.value ≠ x.value := hR e he
  have h1 : countV e.value (x :: (T ++ R)) = countV e.value R := by
    rw [countV_cons_ne _ _ _ (by intro hc; exact hne hc.symm)]
    rw [countV_append]
    rw [countV_eq_zero _ T (by
      intro t ht hc
      exact hne (by rw [← hc, hT t ht]))]
    omega
  rw [h1]

theorem filter_countV_cons_ne (x : QElem) (rest L : List QElem)
    (hL : L = x :: rest)
    (hrest : ∀ e ∈ rest, e.value ≠ x.value) :
    L.filter (fun e => countV e.value L = 1)
      = x :: rest.filter (fun e => countV e.value rest = 1) := by
  subst hL
  have hx1 : countV x.value (x :: rest) = 1 := by
    rw [countV_cons_eq _ _ _ rfl, countV_eq_zero _ _ hrest]
  rw [List.filter_cons_of_pos (by simp [hx1])]
  congr 1
  apply List.filter_congr
  intro e he
  rw [countV_cons_ne _ _ _ (by intro hc; exact hrest e he hc.symm)]

theorem dd_sorted_aux : ∀ (n : Nat) (l : List QElem), l.length ≤ n → SortedV l →
    ddAux l.length l = l.filter (fun e => countV e.value l = 1) := by
  intro n
  induction n with
  | zero =>
    intro l h _
    have hnil : l = [] := by
      cases l with
      | nil => rfl
      | cons x t => simp at h
    subst hnil
    rfl
  | succ m ih =>
    intro l hlen hs
    cases l with
    | nil => rfl
    | cons x rest =>
      cases rest with
      | nil =>
        show [x] = _
        have h1 : countV x.value [x] = 1 := by
          rw [countV_cons_eq _ _ _ rfl]
          rfl
        rw [List.filter_cons_of_pos (by simp [h1])]
        rfl
      | cons y rest2 =>
        have hlen2 : (x :: y :: rest2).length = rest2.length + 1 + 1 := by simp
        rw [hlen2]
        simp only [ddAux]
        rcases List.pairwise_cons.mp hs with ⟨hx, hrest⟩
        simp only [List.length_cons] at hlen
        by_cases heq : x.value = y.value
        · rw [if_pos heq]
          have hRsub : ((y :: rest2).dropWhile
              (fun e => e.value = x.value)).Sublist (y :: rest2) :=
            List.dropWhile_sublist _
          have hRlen : ((y :: rest2).dropWhile
              (fun e => e.value = x.value)).length ≤ rest2.length + 1 := by
            have := List.Sublist.length_le hRsub
            simpa using this
          have hRsorted : SortedV ((y :: rest2).dropWhile
              (fun e => e.value = x.value)) :=
            List.Pairwise.sublist hRsub hrest
          have hLHS : ddAux (rest2.length + 1)
              ((y :: rest2).dropWhile (fun e => e.value = x.value))
              = ((y :: rest2).dropWhile (fun e => e.value = x.value)).filter
                  (fun e => countV e.value
                    ((y :: rest2).dropWhile (fun e => e.value = x.value)) = 1) := by
            rw [ddAux_fuel (rest2.length + 1)
              ((y :: rest2).dropWhile (fun e => e.value = x.value)).length
              _ hRlen (le_refl _)]
            exact ih _ (by omega) hRsorted
          rw [hLHS]
          refine (filter_countV_split x
            ((y :: rest2).takeWhile (fun e => e.value = x.value))
            ((y :: rest2).dropWhile (fun e => e.value = x.value))
            (x :: y :: rest2) ?_ ?_ ?_ ?_).symm
          · rw [List.takeWhile_append_dropWhile]
          · intro e he
            have := List.mem_takeWhile_imp he
            simpa using this
          · rw [countV_cons_eq _ _ _ rfl]
            rw [countV_cons_eq _ _ _ heq.symm]
            omega
          · intro e he
            exact val_ne_of_mem_dropWhile hs e he
        · rw [if_neg heq]
          have hslt : slt x.value y.value := by
            have hxy : sle x.value y.value := hx y (by simp)
            cases hlt : scmp x.value y.value with
            | lt => exact hlt
            | eq => exact absurd ((scmp_eq_iff _ _).mp hlt) heq
            | gt => exact absurd hlt hxy
          have hne : ∀ e ∈ y :: rest2, e.value ≠ x.value := by
            intro e he
            exact not_value_mem_of_slt hrest hslt e he
          have hLHS : ddAux (rest2.length + 1) (y :: rest2)
              = (y :: rest2).filter
                  (fun e => countV e.value (y :: rest2) = 1) := by
            have h1 : (y :: rest2).length = rest2.length + 1 := by simp
            rw [← h1]
            exact ih (y :: rest2) (by simp; omega) hrest
          rw [hLHS]
          exact (filter_countV_cons_ne x (y :: rest2) (x :: y :: rest2) rfl hne).symm

theorem dd_sorted (l : List QElem) (hs : SortedV l) :
    ddAux l.length l = l.filter (fun e => countV e.value l = 1) :=
  dd_sorted_aux l.length l (le_refl _) hs

theorem ringCyc_nodup_of_sublist {s : Nat} {l1 l2 : List QElem}
    (hsub : l1.Sublist l2) (hnd : (ringCyc s l2).Nodup) :
    (ringCyc s l1).Nodup := by
  unfold ringCyc at hnd ⊢
  exact List.Nodup.sublist (List.Sublist.cons₂ s (List.Sublist.map _ hsub)) hnd

theorem ringCyc_nodup_of_perm {s : Nat} {l1 l2 : List QElem}
    (hp : l1.Perm l2) (hnd : (ringCyc s l2).Nodup) :
    (ringCyc s l1).Nodup := by
  unfold ringCyc at hnd ⊢
  rcases List.nodup_cons.mp hnd with ⟨hsm, hmap⟩
  refine List.nodup_cons.mpr ⟨?_, ?_⟩
  · intro hmem
    exact hsm (((hp.map QElem.id).mem_iff).mp hmem)
  · exact ((hp.map QElem.id).nodup_iff).mpr hmap

theorem ringCyc_nodup_tail {s : Nat} {e : QElem} {l : List QElem}
    (hnd : (ringCyc s (e :: l)).Nodup) : (ringCyc s l).Nodup :=
  ringCyc_nodup_of_sublist (List.sublist_cons_self e l) hnd

/-! ### Claim theorems -/

/-- C1: q_sort reorders every ring so that the forward value sequence is
non-decreasing under string comparison and is a permutation of the
original elements (the same multiset, relinking only existing nodes,
none allocated or freed); a NULL, empty, or single-element queue is left
unchanged. -/
theorem C1_q_sort_correct :
    (∀ l : List QElem, (q_sort l).Perm l ∧ SortedV (q_sort l))
    ∧ (∀ l : List QElem, l.length ≤ 1 → q_sort l = l)
    ∧ q_sort_c none = none := by
  refine ⟨?_, ?_, rfl⟩
  · intro l
    exact ⟨q_sort_perm l, q_sort_sortedV l⟩
  · intro l h
    unfold q_sort
    rw [if_pos h]

theorem C1_q_sort_witness :
    (q_sort [⟨0,[98]⟩, ⟨1,[97]⟩, ⟨2,[99]⟩]).Perm [⟨0,[98]⟩, ⟨1,[97]⟩, ⟨2,[99]⟩]
    ∧ SortedV (q_sort [⟨0,[98]⟩, ⟨1,[97]⟩, ⟨2,[99]⟩])
    ∧ ([(⟨5,[100]⟩ : QElem)].length ≤ 1
       ∧ q_sort [⟨5,[100]⟩] = [⟨5,[100]⟩]) :=
  ⟨(C1_q_sort_correct.1 _).1, (C1_q_sort_correct.1 _).2,
    by decide, C1_q_sort_correct.2.1 [⟨5,[100]⟩] (by decide)⟩

/-- C4: q_delete_mid removes exactly the element at zero-based index
floor(N/2) from a non-empty ring of N elements, leaves the others in their
original relative order, and returns true; on a NULL or empty queue it
returns false and mutates nothing. -/
theorem C4_delete_mid_correct :
    (∀ l : List QElem, l ≠ [] →
      q_delete_mid l
        = (true, l.take (l.length / 2) ++ l.drop (l.length / 2 + 1))
      ∧ (q_delete_mid l).2.length = l.length - 1)
    ∧ q_delete_mid_c none = (false, none)
    ∧ q_delete_mid_c (some []) = (false, some []) := by
  refine ⟨?_, rfl, rfl⟩
  intro l hne
  cases l with
  | nil => exact absurd rfl hne
  | cons x rest =>
    have hidx : meetAux (x :: rest).length 0 ((x :: rest).length - 1)
        = (x :: rest).length / 2 := by
      rw [meetAux_eq _ 0 _ (by omega) (by simp)]
      omega
    have heq : q_delete_mid (x :: rest)
        = (true, (x :: rest).take ((x :: rest).length / 2)
            ++ (x :: rest).drop ((x :: rest).length / 2 + 1)) := by
      show (true, (x :: rest).eraseIdx
        (meetAux (x :: rest).length 0 ((x :: rest).length - 1))) = _
      rw [hidx, List.eraseIdx_eq_take_drop_succ]
    refine ⟨heq, ?_⟩
    rw [heq]
    simp [List.length_take, List.length_drop]
    omega

theorem C4_delete_mid_witness :
    ((([⟨0,[97]⟩, ⟨1,[98]⟩, ⟨2,[99]⟩, ⟨3,[100]⟩, ⟨4,[101]⟩, ⟨5,[102]⟩]
        : List QElem) ≠ [])
      ∧ q_delete_mid [⟨0,[97]⟩, ⟨1,[98]⟩, ⟨2,[99]⟩, ⟨3,[100]⟩, ⟨4,[101]⟩, ⟨5,[102]⟩]
        = (true, [⟨0,[97]⟩, ⟨1,[98]⟩, ⟨2,[99]⟩, ⟨4,[101]⟩, ⟨5,[102]⟩]))
    ∧ ((([⟨0,[97]⟩, ⟨1,[98]⟩, ⟨2,[99]⟩, ⟨3,[100]⟩, ⟨4,[101]⟩] : List QElem) ≠ [])
      ∧ q_delete_mid [⟨0,[97]⟩, ⟨1,[98]⟩, ⟨2,[99]⟩, ⟨3,[100]⟩, ⟨4,[101]⟩]
        = (true, [⟨0,[97]⟩, ⟨1,[98]⟩, ⟨3,[100]⟩, ⟨4,[101]⟩])) := by
  refine ⟨⟨by decide, ?_⟩, ⟨by decide, ?_⟩⟩
  · rw [(C4_delete_mid_correct.1 _ (by decide)).1]
    decide
  · rw [(C4_delete_mid_correct.1 _ (by decide)).1]
    decide

/-- C5: under the sortedness precondition q_delete_dup removes all copies
of every repeated value, keeping exactly the elements whose value occurs
once, in their original order; in particular a,a,b,c,c,c becomes b. -/
theorem C5_delete_dup_sorted :
    (∀ l : List QElem, SortedV l → l ≠ [] →
      q_delete_dup_c (some l)
        = (true, some (l.filter (fun e => countV e.value l = 1))))
    ∧ q_delete_dup_c (some
        [⟨0,[97]⟩, ⟨1,[97]⟩, ⟨2,[98]⟩, ⟨3,[99]⟩, ⟨4,[99]⟩, ⟨5,[99]⟩])
      = (true, some [⟨2,[98]⟩]) := by
  constructor
  · intro l hs hne
    cases l with
    | nil => exact absurd rfl hne
    | cons x rest =>
      show (true, some (ddAux (x :: rest).length (x :: rest))) = _
      rw [dd_sorted (x :: rest) hs]
  · decide

theorem C5_delete_dup_witness :
    SortedV [⟨0,[97]⟩, ⟨1,[97]⟩, ⟨2,[98]⟩]
    ∧ ([⟨0,[97]⟩, ⟨1,[97]⟩, ⟨2,[98]⟩] : List QElem) ≠ []
    ∧ q_delete_dup_c (some [⟨0,[97]⟩, ⟨1,[97]⟩, ⟨2,[98]⟩])
      = (true, some ([⟨0,[97]⟩, ⟨1,[97]⟩, ⟨2,[98]⟩].filter
          (fun e => countV e.value [⟨0,[97]⟩, ⟨1,[97]⟩, ⟨2,[98]⟩] = 1))) :=
  ⟨by decide, by decide,
    C5_delete_dup_sorted.1 _ (by decide) (by decide)⟩

/-- C6: the code evaluated at a non-null empty queue: q_delete_dup returns
false there (line 211 guards empty exactly like NULL), although the claim,
the specification, and the function's own comment promise failure only for
a NULL handle. -/
theorem C6_delete_dup_empty_returns_false :
    q_delete_dup_c (some []) = (false, some [])
    ∧ q_delete_dup_c none = (false, none) :=
  ⟨rfl, rfl⟩

/-- C8: q_swap exchanges the elements at indices 0 and 1, 2 and 3, and so
on, by relinking whole nodes (the permutation conjunct); an odd-length
tail element stays in place; a NULL queue is untouched; and the
five-element example swaps to b,a,d,c,e. -/
theorem C8_swap_pairwise :
    (∀ (l : List QElem) (k : Nat) (d : QElem), 2 * k + 1 < l.length →
      (q_swap l).getD (2 * k) d = l.getD (2 * k + 1) d
      ∧ (q_swap l).getD (2 * k + 1) d = l.getD (2 * k) d)
    ∧ (∀ (l : List QElem) (d : QElem), l.length % 2 = 1 →
      (q_swap l).getD (l.length - 1) d = l.getD (l.length - 1) d)
    ∧ (∀ l : List QElem, (q_swap l).length = l.length ∧ (q_swap l).Perm l)
    ∧ q_swap_c none = none
    ∧ (∀ a b c d e : QElem, q_swap [a, b, c, d, e] = [b, a, d, c, e]) := by
  refine ⟨?_, ?_, ?_, rfl, ?_⟩
  · intro l k d h
    exact q_swap_pair_getD k l d h
  · intro l d h
    exact q_swap_odd_last l d h
  · intro l
    exact ⟨q_swap_length l, q_swap_perm l⟩
  · intro a b c d e
    rfl

theorem C8_swap_witness :
    (2 * 1 + 1 < ([⟨0,[97]⟩, ⟨1,[98]⟩, ⟨2,[99]⟩, ⟨3,[100]⟩, ⟨4,[101]⟩]
        : List QElem).length)
    ∧ (q_swap [⟨0,[97]⟩, ⟨1,[98]⟩, ⟨2,[99]⟩, ⟨3,[100]⟩, ⟨4,[101]⟩]).getD
        (2 * 1) ⟨9,[9]⟩
      = ([⟨0,[97]⟩, ⟨1,[98]⟩, ⟨2,[99]⟩, ⟨3,[100]⟩, ⟨4,[101]⟩]
          : List QElem).getD (2 * 1 + 1) ⟨9,[9]⟩ :=
  ⟨by decide,
    (C8_swap_pairwise.1 [⟨0,[97]⟩, ⟨1,[98]⟩, ⟨2,[99]⟩, ⟨3,[100]⟩, ⟨4,[101]⟩]
      1 ⟨9,[9]⟩ (by decide)).1⟩

/-- C2 counterexample: three equal-valued elements with node identities
0, 1, 2 come out of q_sort as 0, 2, 1, so equal-valued elements do not
keep their pre-sort relative order: q_sort is not stable. -/
theorem C2_stability_counterexample :
    q_sort [⟨0,[97]⟩, ⟨1,[97]⟩, ⟨2,[97]⟩] = [⟨0,[97]⟩, ⟨2,[97]⟩, ⟨1,[97]⟩]
    ∧ ¬ ((q_sort [⟨0,[97]⟩, ⟨1,[97]⟩, ⟨2,[97]⟩]).filter
          (fun e => e.value = [97])
        = [⟨0,[97]⟩, ⟨1,[97]⟩, ⟨2,[97]⟩].filter (fun e => e.value = [97])) := by
  constructor
  · decide
  · decide

/-- C2 amended: each single merge of two sorted runs is stable: on equal
head values the element of the first (lower-indexed) run is taken first,
and filtering the merge by any value lists the first run's matches before
the second run's, each in run order; q_sort as a whole is not stable. -/
theorem C2_merge_stable :
    (∀ (v : List Nat) (l1 l2 : List QElem), SortedV l1 → SortedV l2 →
      (merge_sorted_singly l1 l2).filter (fun e => e.value = v)
        = l1.filter (fun e => e.value = v)
          ++ l2.filter (fun e => e.value = v))
    ∧ (∀ (a b : QElem) (t1 t2 : List QElem), scmp a.value b.value = Ordering.eq →
        merge_sorted_singly (a :: t1) (b :: t2)
          = a :: merge_sorted_singly t1 (b :: t2)) := by
  constructor
  · intro v l1 l2 h1 h2
    exact merge_filter v l1 l2 h1 h2
  · intro a b t1 t2 heq
    rw [merge_cons_cons, if_neg (by rw [heq]; simp)]

theorem C2_merge_stable_witness :
    SortedV [⟨0,[97]⟩] ∧ SortedV [⟨1,[97]⟩]
    ∧ (merge_sorted_singly [⟨0,[97]⟩] [⟨1,[97]⟩]).filter
        (fun e => e.value = [97])
      = ([⟨0,[97]⟩] : List QElem).filter (fun e => e.value = [97])
        ++ ([⟨1,[97]⟩] : List QElem).filter (fun e => e.value = [97]) :=
  ⟨by decide, by decide,
    C2_merge_stable.1 [97] [⟨0,[97]⟩] [⟨1,[97]⟩] (by decide) (by decide)⟩

theorem U64_two_le : 2 ≤ U64 := by
  unfold U64
  norm_num

theorem strnlen_eq (v : List Nat) (m : Nat) (h : ∀ c ∈ v, c ≠ 0) :
    strnlen v m = min v.length m := by
  induction v generalizing m with
  | nil => cases m <;> simp [strnlen]
  | cons c cs ih =>
    cases m with
    | zero => simp [strnlen]
    | succ k =>
      simp only [strnlen]
      rw [if_neg (h c (by simp))]
      rw [ih k (fun d hd => h d (by simp [hd]))]
      simp only [List.length_cons]
      omega

theorem removeCopy_bufsize_zero : removeCopy [97] 0 = [97, 0] := by
  show [97].take (strnlen [97] ((0 + U64 - 1) % U64)) ++ [0] = [97, 0]
  have h1 : (0 + U64 - 1) % U64 = U64 - 1 := by
    have h2 : 0 + U64 - 1 = U64 - 1 := by omega
    rw [h2]
    exact Nat.mod_eq_of_lt (by have := U64_two_le; omega)
  rw [h1, strnlen_eq [97] (U64 - 1) (by intro c hc; simp at hc; omega)]
  have h3 : min ([97] : List Nat).length (U64 - 1) = 1 := by
    have := U64_two_le
    simp
    omega
  rw [h3]
  rfl

/-- C7 counterexample: at bufsize = 0 the size_t expression bufsize - 1
wraps to 2^64 - 1, so q_remove_head writes the whole one-byte value plus
the terminator - two bytes - into a zero-capacity buffer, beyond the given
capacity. -/
theorem C7_truncation_counterexample :
    q_remove_head [⟨1,[97]⟩] 0 = some (⟨1,[97]⟩, [97, 0], [])
    ∧ ¬ (([97, 0] : List Nat).length ≤ 0) := by
  constructor
  · have h : q_remove_head [⟨1,[97]⟩] 0
        = some (⟨1,[97]⟩, removeCopy [97] 0, []) := rfl
    rw [h, removeCopy_bufsize_zero]
  · decide

/-- C7 amended: for every capacity bufsize with 1 <= bufsize < 2^64, both
remove functions write into the buffer exactly a prefix of the removed
value of at most bufsize - 1 bytes followed by a terminator, never more
than bufsize bytes; the claim's bufsize = 0 case is excluded because the
size_t wrap there writes the whole value plus terminator. -/
theorem C7_truncation_eq :
    ∀ bufsize : Nat, 1 ≤ bufsize → bufsize < U64 →
    ∀ v : List Nat, (∀ c ∈ v, c ≠ 0) →
    removeCopy v bufsize = v.take (min v.length (bufsize - 1)) ++ [0]
    ∧ (removeCopy v bufsize).length ≤ bufsize
    ∧ (∀ (e : QElem) (rest : List QElem),
        q_remove_head (e :: rest) bufsize
          = some (e, removeCopy e.value bufsize, rest))
    ∧ (∀ (front : List QElem) (e : QElem),
        q_remove_tail (front ++ [e]) bufsize
          = some (e, removeCopy e.value bufsize, front)) := by
  intro bufsize h1 h2 v hv
  have hmod : (bufsize + U64 - 1) % U64 = bufsize - 1 := by
    have he : bufsize + U64 - 1 = (bufsize - 1) + U64 := by omega
    rw [he, Nat.add_mod_right]
    exact Nat.mod_eq_of_lt (by omega)
  have hcopy : removeCopy v bufsize
      = v.take (min v.length (bufsize - 1)) ++ [0] := by
    show v.take (strnlen v ((bufsize + U64 - 1) % U64)) ++ [0] = _
    rw [hmod, strnlen_eq v _ hv]
  refine ⟨hcopy, ?_, ?_, ?_⟩
  · rw [hcopy]
    simp only [List.length_append, List.length_take, List.length_singleton]
    omega
  · intro e rest
    rfl
  · intro front e
    show (match (front ++ [e]).getLast? with
      | none => none
      | some x => some (x, removeCopy x.value bufsize,
          (front ++ [e]).dropLast)) = _
    rw [List.getLast?_concat, List.dropLast_concat]

theorem C7_truncation_witness :
    (1 ≤ 2 ∧ 2 < U64 ∧ (∀ c ∈ ([97, 98, 99] : List Nat), c ≠ 0))
    ∧ removeCopy [97, 98, 99] 2
      = ([97, 98, 99] : List Nat).take (min ([97, 98, 99] : List Nat).length 1)
        ++ [0]
    ∧ (removeCopy [97, 98, 99] 2).length ≤ 2 :=
  ⟨⟨by decide, by norm_num [U64], by decide⟩,
    (C7_truncation_eq 2 (by decide) (by norm_num [U64]) [97, 98, 99]
      (by decide)).1,
    (C7_truncation_eq 2 (by decide) (by norm_num [U64]) [97, 98, 99]
      (by decide)).2.1⟩

/-- C9: q_reverse swaps every node's next and prev fields through the XOR
swap, which reverses the traversal order in place using only the existing
nodes; applying it twice restores the exact pointer structure (identical
node identities in original order), and on the sequence it is an
involution. -/
theorem C9_reverse_involution :
    ∀ (s : Nat) (l : List QElem), (ringCyc s l).Nodup →
      ptrReverse (ptrReverse (mkRing s l)) = mkRing s l
      ∧ ringSeq (mkRing s l) s l.length = l.map QElem.id
      ∧ ringSeq (ptrReverse (mkRing s l)) s l.length = (l.map QElem.id).reverse
      ∧ q_reverse (q_reverse l) = l
      ∧ (q_reverse l).Perm l
      ∧ (∀ a b : Nat, swapptr a b = (b, a)) := by
  intro s l hnd
  refine ⟨ptrReverse_ptrReverse _, ringSeq_mkRing s l hnd,
    ringSeq_reverse_mkRing s l hnd, ?_, ?_, swapptr_eq⟩
  · show (l.reverse).reverse = l
    exact List.reverse_reverse l
  · exact List.reverse_perm l

theorem C9_reverse_witness :
    (ringCyc 0 [⟨1,[97]⟩, ⟨2,[98]⟩]).Nodup
    ∧ ringSeq (ptrReverse (mkRing 0 [⟨1,[97]⟩, ⟨2,[98]⟩])) 0 2
      = ([⟨1,[97]⟩, ⟨2,[98]⟩].map QElem.id).reverse
    ∧ ptrReverse (ptrReverse (mkRing 0 [⟨1,[97]⟩, ⟨2,[98]⟩]))
      = mkRing 0 [⟨1,[97]⟩, ⟨2,[98]⟩] :=
  ⟨by decide,
    (C9_reverse_involution 0 [⟨1,[97]⟩, ⟨2,[98]⟩] (by decide)).2.2.1,
    (C9_reverse_involution 0 [⟨1,[97]⟩, ⟨2,[98]⟩] (by decide)).1⟩

/-- C10: a successful q_remove_head or q_remove_tail re-initializes the
removed element's link node to a self-loop through list_del_init, so the
detached element points only at itself and carries no pointers into the
ring it left. -/
theorem C10_removed_node_selfloop :
    ∀ (s : Nat) (e : QElem) (l : List QElem),
      ((q_remove_head_ptr (mkRing s (e :: l)) s).next e.id = e.id
       ∧ (q_remove_head_ptr (mkRing s (e :: l)) s).prev e.id = e.id)
      ∧ ((q_remove_tail_ptr (mkRing s (l ++ [e])) s).next e.id = e.id
       ∧ (q_remove_tail_ptr (mkRing s (l ++ [e])) s).prev e.id = e.id) := by
  intro s e l
  constructor
  · constructor
    · show (list_del_init (mkRing s (e :: l))
        ((mkRing s (e :: l)).next s)).next e.id = e.id
      rw [mkRing_next_sentinel]
      exact list_del_init_self_next _ _
    · show (list_del_init (mkRing s (e :: l))
        ((mkRing s (e :: l)).next s)).prev e.id = e.id
      rw [mkRing_next_sentinel]
      exact list_del_init_self_prev _ _
  · constructor
    · show (list_del_init (mkRing s (l ++ [e]))
        ((mkRing s (l ++ [e])).prev s)).next e.id = e.id
      rw [mkRing_prev_sentinel]
      exact list_del_init_self_next _ _
    · show (list_del_init (mkRing s (l ++ [e]))
        ((mkRing s (l ++ [e])).prev s)).prev e.id = e.id
      rw [mkRing_prev_sentinel]
      exact list_del_init_self_prev _ _

/-- C3: after each public operation applied to a valid ring (sentinel and
nodes pairwise distinct, the inserted node fresh), the ring invariant
holds again: every reachable node x satisfies x.next.prev == x and
x.prev.next == x, and the traversal that leaves the sentinel passes
through exactly the N remaining elements before first returning to the
sentinel. -/
theorem C3_ring_invariant_after_ops :
    ∀ (s : Nat) (e : QElem) (l : List QElem),
      (ringCyc s (e :: l)).Nodup →
      RingInv s (q_insert_head l e).length (mkRing s (q_insert_head l e))
      ∧ RingInv s (q_insert_tail l e).length (mkRing s (q_insert_tail l e))
      ∧ (∀ (bufsize : Nat) (x : QElem) (w : List Nat) (rest : List QElem),
          q_remove_head l bufsize = some (x, w, rest) →
          RingInv s rest.length (mkRing s rest))
      ∧ (∀ (bufsize : Nat) (x : QElem) (w : List Nat) (rest : List QElem),
          q_remove_tail l bufsize = some (x, w, rest) →
          RingInv s rest.length (mkRing s rest))
      ∧ RingInv s (q_delete_mid l).2.length (mkRing s (q_delete_mid l).2)
      ∧ (∀ (b : Bool) (l2 : List QElem),
          q_delete_dup_c (some l) = (b, some l2) →
          RingInv s l2.length (mkRing s l2))
      ∧ RingInv s (q_swap l).length (mkRing s (q_swap l))
      ∧ RingInv s (q_reverse l).length (mkRing s (q_reverse l))
      ∧ RingInv s (q_sort l).length (mkRing s (q_sort l)) := by
  intro s e l hnd
  have hndl : (ringCyc s l).Nodup := ringCyc_nodup_tail hnd
  refine ⟨?_, ?_, ?_, ?_, ?_, ?_, ?_, ?_, ?_⟩
  · exact RingInv_mkRing s _ hnd
  · exact RingInv_mkRing s _
      (ringCyc_nodup_of_perm (List.perm_append_singleton e l) hnd)
  · intro bufsize x w rest hrem
    cases l with
    | nil => simp [q_remove_head] at hrem
    | cons y t =>
      have hr : rest = t := by
        have : some (y, removeCopy y.value bufsize, t)
            = some (x, w, rest) := hrem
        injection this with h2
        exact (congrArg (fun p => p.2.2) h2).symm
      subst hr
      exact RingInv_mkRing s _ (ringCyc_nodup_tail hndl)
  · intro bufsize x w rest hrem
    unfold q_remove_tail at hrem
    cases hgl : l.getLast? with
    | none => rw [hgl] at hrem; simp at hrem
    | some g =>
      rw [hgl] at hrem
      have hr : rest = l.dropLast := by
        have : some (g, removeCopy g.value bufsize, l.dropLast)
            = some (x, w, rest) := hrem
        injection this with h2
        exact (congrArg (fun p => p.2.2) h2).symm
      subst hr
      exact RingInv_mkRing s _
        (ringCyc_nodup_of_sublist (List.dropLast_sublist l) hndl)
  · cases l with
    | nil =>
      exact RingInv_mkRing s []
        (ringCyc_nodup_of_sublist (List.nil_sublist []) hndl)
    | cons y t =>
      exact RingInv_mkRing s _
        (ringCyc_nodup_of_sublist (List.eraseIdx_sublist _ _) hndl)
  · intro b l2 hdd
    cases l with
    | nil =>
      have : some [] = some l2 := congrArg Prod.snd hdd
      injection this with h2
      subst h2
      exact RingInv_mkRing s []
        (ringCyc_nodup_of_sublist (List.nil_sublist []) hndl)
    | cons y t =>
      have : some (ddAux (y :: t).length (y :: t)) = some l2 :=
        congrArg Prod.snd hdd
      injection this with h2
      subst h2
      exact RingInv_mkRing s _
        (ringCyc_nodup_of_sublist (ddAux_sublist _ _) hndl)
  · exact RingInv_mkRing s _ (ringCyc_nodup_of_perm (q_swap_perm l) hndl)
  · exact RingInv_mkRing s _
      (ringCyc_nodup_of_perm (List.reverse_perm l) hndl)
  · exact RingInv_mkRing s _ (ringCyc_nodup_of_perm (q_sort_perm l) hndl)

theorem C3_ring_invariant_witness :
    (ringCyc 0 [⟨1,[97]⟩, ⟨2,[98]⟩]).Nodup
    ∧ RingInv 0 (q_insert_head [⟨2,[98]⟩] ⟨1,[97]⟩).length
        (mkRing 0 (q_insert_head [⟨2,[98]⟩] ⟨1,[97]⟩))
    ∧ RingInv 0 (q_sort [⟨2,[98]⟩]).length (mkRing 0 (q_sort [⟨2,[98]⟩])) :=
  ⟨by decide,
    (C3_ring_invariant_after_ops 0 ⟨1,[97]⟩ [⟨2,[98]⟩] (by decide)).1,
    (C3_ring_invariant_after_ops 0 ⟨1,[97]⟩ [⟨2,[98]⟩]
      (by decide)).2.2.2.2.2.2.2.2⟩
